import Mathlib

/-!
# Verification of the gotrace repository

Shallow embedding of the core of the `gotrace` repository:

* `cmd/gotrace/callgraph.go` — call-graph queries (`findCallersTo`,
  `findCalleesFrom`, `findPathSegment`, `formatFuncName`,
  `matchesFunctionName`, `findFunctionNodes`, `getTypeName`);
* `trace/trace.go` — the event tracer (`Trace`, `TraceOnPanic`,
  `GetTraces`, `GetHotPaths`, `Reset`, `SetThresholds`,
  `PrintFunctionStats`);
* `cmd/gotrace/runner.go` — the post-`Wait` finalization sequence of
  `runBinary`.

Pure functions are translated to Lean functions; the tracer's package
state becomes an explicit `TracerState` record and each Go function a
state transition; printing becomes an explicit list of emitted events.
-/

namespace Gotrace

/-! ## Call graph data model (callgraph.go)

An SSA function is modelled by the data the queries actually consult:
its simple name (`fn.Name()`), its receiver type (if a method;
`fn.Signature.Recv()`), and its package name (`fn.Pkg.Pkg.Name()`).
Receiver types keep the pointer structure so `getTypeName` can be
translated as in the source. -/

inductive GoType where
  | ptr (elem : GoType)
  | named (name : String)
  | other (repr : String)
deriving DecidableEq, Repr

/-- `strings.HasPrefix`, translated structurally (rather than through
`String.startsWith`, whose well-founded recursion does not reduce in
the kernel) so that concrete instances evaluate. -/
def strStartsWith (s pre : String) : Bool :=
  pre.data.isPrefixOf s.data

/-- `getTypeName` from callgraph.go: extracts the type name from a
type, stripping pointers. -/
def getTypeName : GoType → String
  | .ptr elem => getTypeName elem
  | .named n => n
  | .other r => r

structure SsaFun where
  name : String
  recv : Option GoType
  pkg : Option String
deriving DecidableEq, Repr

/-- A call-graph node: `node.Func` may be nil in the Go graph, hence
`Option SsaFun`. Nodes are identified by a numeric id (the Go code
identifies them by pointer). -/
structure CGNode where
  nid : Nat
  func : Option SsaFun
deriving DecidableEq, Repr

/-- The call graph: the node set plus directed edges
(caller id, callee id). `node.In` / `node.Out` of the Go graph are
recovered as `inNeighbors` / `outNeighbors`. -/
structure CallGraph where
  nodes : List CGNode
  edges : List (Nat × Nat)
deriving DecidableEq, Repr

/-- Node ids are unique (Go nodes are distinct heap objects keyed by
distinct `*ssa.Function`s). -/
def CallGraph.WF (g : CallGraph) : Prop :=
  (g.nodes.map (·.nid)).Nodup

instance (g : CallGraph) : Decidable g.WF := by
  unfold CallGraph.WF; infer_instance

def lookupNode (g : CallGraph) (v : Nat) : Option CGNode :=
  g.nodes.find? (fun n => n.nid == v)

def funcOf (g : CallGraph) (v : Nat) : Option SsaFun :=
  (lookupNode g v).bind (·.func)

/-- Incoming edges of `v` (the callers), as in `node.In`. -/
def inNeighbors (g : CallGraph) (v : Nat) : List Nat :=
  (g.edges.filter (fun e => e.2 == v)).map (·.1)

/-- Outgoing edges of `v` (the callees), as in `node.Out`. -/
def outNeighbors (g : CallGraph) (v : Nat) : List Nat :=
  (g.edges.filter (fun e => e.1 == v)).map (·.2)

/-- `formatFuncName` from callgraph.go: empty for nil or
synthetic/initializer functions (name starting with `$` or equal to
`init`), otherwise `Type.Method` for methods and the bare name for
functions. -/
def formatFuncName : Option SsaFun → String
  | none => ""
  | some f =>
    if strStartsWith f.name "$" || f.name == "init" then ""
    else
      match f.recv with
      | some t => getTypeName t ++ "." ++ f.name
      | none => f.name

/-- The formatted name of the node with id `v`. -/
def nameOf (g : CallGraph) (v : Nat) : String :=
  formatFuncName (funcOf g v)

/-- `matchesFunctionName` from callgraph.go: bare name, `Type.Method`
(with optional `*` on the target), or `pkg.name`. -/
def matchesFunctionName (f : SsaFun) (target : String) : Bool :=
  (f.name == target) ||
  (match f.recv with
   | some rt =>
     let fullName := getTypeName rt ++ "." ++ f.name
     fullName == target ||
       (strStartsWith target "*" && "*" ++ fullName == target)
   | none => false) ||
  (match f.pkg with
   | some p => p ++ "." ++ f.name == target
   | none => false)

/-- `findFunctionNodes` from callgraph.go: all graph nodes whose
(non-nil) function matches the target string. -/
def findFunctionNodes (g : CallGraph) (target : String) : List CGNode :=
  g.nodes.filter (fun n =>
    match n.func with
    | none => false
    | some f => matchesFunctionName f target)

/-- The guard applied by the BFS loops before a discovered name is
added to the result set: `name != "" && name != "<root>"`. -/
def properName (nm : String) : Bool :=
  nm != "" && nm != "<root>"

/-! ## The BFS traversal

Both query loops in callgraph.go are the same worklist algorithm, only
the edge direction differs; we translate it once, parameterized by the
adjacency function. The Go loop dequeues `current`, and for each
neighbor skips nil nodes and already-visited nodes, otherwise marks the
neighbor visited, records its formatted name when it passes the
`properName` guard, and enqueues it. The loop terminates because every
enqueued node is freshly visited; `bfsLoop` takes fuel, and the entry
point supplies enough for the queue to drain (proved below). -/

/-- Process all neighbors of the dequeued node, as the inner `for`
loop over `current.In` / `current.Out`. State: (queue, visited,
accumulated names). -/
def expandNbrs (g : CallGraph) :
    List Nat → List Nat × List Nat × List String →
    List Nat × List Nat × List String
  | [], acc => acc
  | nb :: nbs, (queue, visited, out) =>
    match lookupNode g nb with
    | none => expandNbrs g nbs (queue, visited, out)
    | some node =>
      if nb ∈ visited then
        expandNbrs g nbs (queue, visited, out)
      else
        let nm := formatFuncName node.func
        expandNbrs g nbs
          (queue ++ [nb], nb :: visited,
            if properName nm then nm :: out else out)

/-- The outer worklist loop (`for len(queue) > 0`). -/
def bfsLoop (g : CallGraph) (adj : Nat → List Nat) :
    Nat → List Nat → List Nat → List String → List Nat × List String
  | 0, _, visited, out => (visited, out)
  | _ + 1, [], visited, out => (visited, out)
  | fuel + 1, current :: rest, visited, out =>
    let acc := expandNbrs g (adj current) (rest, visited, out)
    bfsLoop g adj fuel acc.1 acc.2.1 acc.2.2

/-- The full traversal of `findCallersTo` / `findCalleesFrom`: seed
names are recorded unconditionally (`callers[formatFuncName(node.Func)]
= true` for each seed), seeds start out visited and enqueued, and the
worklist runs to exhaustion. -/
def bfsRun (g : CallGraph) (adj : Nat → List Nat)
    (seeds : List CGNode) : List Nat × List String :=
  bfsLoop g adj (g.nodes.length + (seeds.map (·.nid)).length)
    (seeds.map (·.nid)) (seeds.map (·.nid)) []

def bfsNames (g : CallGraph) (adj : Nat → List Nat)
    (seeds : List CGNode) : List String :=
  seeds.map (fun n => formatFuncName n.func) ++ (bfsRun g adj seeds).2

inductive QueryError where
  | notFound (target : String)
  | noPath (source target : String)
deriving DecidableEq, Repr

/-- `findCallersTo` from callgraph.go: BFS backwards over incoming
edges from all nodes matching `target`; `NotFoundError` when no node
matches. -/
def findCallersTo (g : CallGraph) (target : String) :
    Except QueryError (List String) :=
  if (findFunctionNodes g target).isEmpty then .error (.notFound target)
  else .ok (bfsNames g (inNeighbors g) (findFunctionNodes g target))

/-- `findCalleesFrom` from callgraph.go: BFS forward over outgoing
edges from all nodes matching `source`. -/
def findCalleesFrom (g : CallGraph) (source : String) :
    Except QueryError (List String) :=
  if (findFunctionNodes g source).isEmpty then .error (.notFound source)
  else .ok (bfsNames g (outNeighbors g) (findFunctionNodes g source))

/-- `findPathSegment` from callgraph.go: intersection of
`findCalleesFrom source` and `findCallersTo target` (membership in the
Go string-set maps); `NoPathError` when the intersection is empty. -/
def findPathSegment (g : CallGraph) (source target : String) :
    Except QueryError (List String) := do
  let callees ← findCalleesFrom g source
  let callers ← findCallersTo g target
  if (callees.filter (fun nm => decide (nm ∈ callers))).isEmpty
  then .error (.noPath source target)
  else .ok (callees.filter (fun nm => decide (nm ∈ callers)))

/-! ## Correctness of the worklist traversal

The traversal step relation: `b` is one hop from `a` when an edge in
the chosen direction connects them and `b` resolves to a (non-nil)
graph node — exactly the neighbors the Go loop is willing to expand. -/

def stepRel (g : CallGraph) (adj : Nat → List Nat) (a b : Nat) : Prop :=
  b ∈ adj a ∧ lookupNode g b ≠ none

instance (g : CallGraph) (adj : Nat → List Nat) (a b : Nat) :
    Decidable (stepRel g adj a b) := by
  unfold stepRel; infer_instance

/-- `v` is reachable from one of the seed ids along `stepRel`. -/
def ReachFrom (g : CallGraph) (adj : Nat → List Nat)
    (seeds : List Nat) (v : Nat) : Prop :=
  ∃ s ∈ seeds, Relation.ReflTransGen (stepRel g adj) s v

theorem funcOf_eq {g : CallGraph} {v : Nat} {n : CGNode}
    (h : lookupNode g v = some n) : funcOf g v = n.func := by
  simp [funcOf, h]

theorem nameOf_eq {g : CallGraph} {v : Nat} {n : CGNode}
    (h : lookupNode g v = some n) :
    nameOf g v = formatFuncName n.func := by
  simp [nameOf, funcOf_eq h]

theorem lookupNode_ne_none_iff (g : CallGraph) (v : Nat) :
    lookupNode g v ≠ none ↔ v ∈ g.nodes.map (·.nid) := by
  constructor
  · intro h
    cases hl : lookupNode g v with
    | none => exact absurd hl h
    | some n =>
      have hmem := List.mem_of_find?_eq_some hl
      have hp := List.find?_some hl
      have : n.nid = v := by simpa using hp
      exact this ▸ List.mem_map_of_mem _ hmem
  · intro h hnone
    rcases List.mem_map.mp h with ⟨n, hn, hv⟩
    have := List.find?_eq_none.mp hnone n hn
    simp [hv] at this

theorem expandNbrs_vis_mono (g : CallGraph) :
    ∀ (nbs q vis : List Nat) (out : List String),
      vis ⊆ (expandNbrs g nbs (q, vis, out)).2.1 := by
  intro nbs
  induction nbs with
  | nil => intro q vis out v hv; exact hv
  | cons nb nbs ih =>
    intro q vis out
    simp only [expandNbrs]
    cases hl : lookupNode g nb with
    | none => exact ih q vis out
    | some node =>
      dsimp only
      by_cases hm : nb ∈ vis
      · rw [if_pos hm]; exact ih q vis out
      · rw [if_neg hm]
        exact fun v hv => ih _ _ _ (List.mem_cons_of_mem _ hv)

theorem expandNbrs_queue_iff (g : CallGraph) :
    ∀ (nbs q vis : List Nat) (out : List String) (v : Nat),
      (v ∈ (expandNbrs g nbs (q, vis, out)).1 ↔
        v ∈ q ∨ (v ∈ (expandNbrs g nbs (q, vis, out)).2.1 ∧ v ∉ vis)) := by
  intro nbs
  induction nbs with
  | nil =>
    intro q vis out v
    simp only [expandNbrs]
    exact ⟨fun h => Or.inl h, fun h => h.elim id (fun ⟨h1, h2⟩ => absurd h1 h2)⟩
  | cons nb nbs ih =>
    intro q vis out v
    simp only [expandNbrs]
    cases hl : lookupNode g nb with
    | none => exact ih q vis out v
    | some node =>
      dsimp only
      by_cases hm : nb ∈ vis
      · rw [if_pos hm]; exact ih q vis out v
      · rw [if_neg hm]
        have hnb : nb ∈ (expandNbrs g nbs
            (q ++ [nb], nb :: vis,
              if properName (formatFuncName node.func)
              then formatFuncName node.func :: out else out)).2.1 :=
          expandNbrs_vis_mono g nbs _ _ _ (List.mem_cons_self _ _)
        rw [ih]
        constructor
        · rintro (hq | ⟨hv1, hv2⟩)
          · rcases List.mem_append.mp hq with h | h
            · exact Or.inl h
            · have : v = nb := by simpa using h
              subst this
              exact Or.inr ⟨hnb, hm⟩
          · exact Or.inr ⟨hv1, fun hvv => hv2 (List.mem_cons_of_mem _ hvv)⟩
        · rintro (hq | ⟨hv1, hv2⟩)
          · exact Or.inl (List.mem_append.mpr (Or.inl hq))
          · by_cases hvnb : v = nb
            · subst hvnb
              exact Or.inl (List.mem_append.mpr (Or.inr (by simp)))
            · exact Or.inr ⟨hv1, by simp [hvnb, hv2]⟩

theorem expandNbrs_length (g : CallGraph) :
    ∀ (nbs q vis : List Nat) (out : List String),
      (expandNbrs g nbs (q, vis, out)).1.length + vis.length =
        q.length + (expandNbrs g nbs (q, vis, out)).2.1.length := by
  intro nbs
  induction nbs with
  | nil => intro q vis out; simp [expandNbrs, Nat.add_comm]
  | cons nb nbs ih =>
    intro q vis out
    simp only [expandNbrs]
    cases hl : lookupNode g nb with
    | none => exact ih q vis out
    | some node =>
      dsimp only
      by_cases hm : nb ∈ vis
      · rw [if_pos hm]; exact ih q vis out
      · rw [if_neg hm]
        have := ih (q ++ [nb]) (nb :: vis)
          (if properName (formatFuncName node.func)
           then formatFuncName node.func :: out else out)
        simp only [List.length_append, List.length_cons,
          List.length_nil] at this ⊢
        omega

theorem expandNbrs_vis_sub (g : CallGraph) :
    ∀ (nbs q vis : List Nat) (out : List String) (v : Nat),
      v ∈ (expandNbrs g nbs (q, vis, out)).2.1 →
        v ∈ vis ∨ (v ∈ nbs ∧ lookupNode g v ≠ none) := by
  intro nbs
  induction nbs with
  | nil => intro q vis out v hv; exact Or.inl hv
  | cons nb nbs ih =>
    intro q vis out v
    simp only [expandNbrs]
    cases hl : lookupNode g nb with
    | none =>
      intro hv
      rcases ih q vis out v hv with h | ⟨h1, h2⟩
      · exact Or.inl h
      · exact Or.inr ⟨List.mem_cons_of_mem _ h1, h2⟩
    | some node =>
      dsimp only
      by_cases hm : nb ∈ vis
      · rw [if_pos hm]
        intro hv
        rcases ih q vis out v hv with h | ⟨h1, h2⟩
        · exact Or.inl h
        · exact Or.inr ⟨List.mem_cons_of_mem _ h1, h2⟩
      · rw [if_neg hm]
        intro hv
        rcases ih _ _ _ v hv with h | ⟨h1, h2⟩
        · rcases List.mem_cons.mp h with h' | h'
          · subst h'
            exact Or.inr ⟨List.mem_cons_self _ _, by simp [hl]⟩
          · exact Or.inl h'
        · exact Or.inr ⟨List.mem_cons_of_mem _ h1, h2⟩

theorem expandNbrs_complete (g : CallGraph) :
    ∀ (nbs q vis : List Nat) (out : List String) (v : Nat),
      v ∈ nbs → lookupNode g v ≠ none →
        v ∈ (expandNbrs g nbs (q, vis, out)).2.1 := by
  intro nbs
  induction nbs with
  | nil => intro q vis out v hv; cases hv
  | cons nb nbs ih =>
    intro q vis out v hv hlv
    rcases List.mem_cons.mp hv with h | h
    · subst h
      simp only [expandNbrs]
      cases hl : lookupNode g v with
      | none => exact absurd hl hlv
      | some node =>
        dsimp only
        by_cases hm : v ∈ vis
        · rw [if_pos hm]
          exact expandNbrs_vis_mono g nbs _ _ _ hm
        · rw [if_neg hm]
          exact expandNbrs_vis_mono g nbs _ _ _ (List.mem_cons_self _ _)
    · simp only [expandNbrs]
      cases hl : lookupNode g nb with
      | none => exact ih q vis out v h hlv
      | some node =>
        dsimp only
        by_cases hm : nb ∈ vis
        · rw [if_pos hm]; exact ih q vis out v h hlv
        · rw [if_neg hm]; exact ih _ _ _ v h hlv

theorem expandNbrs_nodup (g : CallGraph) :
    ∀ (nbs q vis : List Nat) (out : List String),
      vis.Nodup → (expandNbrs g nbs (q, vis, out)).2.1.Nodup := by
  intro nbs
  induction nbs with
  | nil => intro q vis out h; exact h
  | cons nb nbs ih =>
    intro q vis out h
    simp only [expandNbrs]
    cases hl : lookupNode g nb with
    | none => exact ih q vis out h
    | some node =>
      dsimp only
      by_cases hm : nb ∈ vis
      · rw [if_pos hm]; exact ih q vis out h
      · rw [if_neg hm]
        exact ih _ _ _ (List.nodup_cons.mpr ⟨hm, h⟩)

theorem expandNbrs_out_iff (g : CallGraph) :
    ∀ (nbs q vis : List Nat) (out : List String) (nm : String),
      (nm ∈ (expandNbrs g nbs (q, vis, out)).2.2 ↔
        nm ∈ out ∨ ∃ v, v ∈ (expandNbrs g nbs (q, vis, out)).2.1 ∧
          v ∉ vis ∧ nameOf g v = nm ∧ properName nm = true) := by
  intro nbs
  induction nbs with
  | nil =>
    intro q vis out nm
    simp only [expandNbrs]
    exact ⟨fun h => Or.inl h,
      fun h => h.elim id (fun ⟨v, h1, h2, _⟩ => absurd h1 h2)⟩
  | cons nb nbs ih =>
    intro q vis out nm
    simp only [expandNbrs]
    cases hl : lookupNode g nb with
    | none => exact ih q vis out nm
    | some node =>
      dsimp only
      by_cases hm : nb ∈ vis
      · rw [if_pos hm]; exact ih q vis out nm
      · rw [if_neg hm]
        have hname : nameOf g nb = formatFuncName node.func := nameOf_eq hl
        have hnb : nb ∈ (expandNbrs g nbs
            (q ++ [nb], nb :: vis,
              if properName (formatFuncName node.func)
              then formatFuncName node.func :: out else out)).2.1 :=
          expandNbrs_vis_mono g nbs _ _ _ (List.mem_cons_self _ _)
        rw [ih]
        constructor
        · rintro (ho | ⟨v, hv1, hv2, hv3, hv4⟩)
          · by_cases hp : properName (formatFuncName node.func) = true
            · rw [if_pos hp] at ho
              rcases List.mem_cons.mp ho with h | h
              · subst h
                exact Or.inr ⟨nb, hnb, hm, hname, hp⟩
              · exact Or.inl h
            · rw [if_neg hp] at ho
              exact Or.inl ho
          · exact Or.inr ⟨v, hv1,
              fun hvv => hv2 (List.mem_cons_of_mem _ hvv), hv3, hv4⟩
        · rintro (ho | ⟨v, hv1, hv2, hv3, hv4⟩)
          · refine Or.inl ?_
            by_cases hp : properName (formatFuncName node.func) = true
            · rw [if_pos hp]; exact List.mem_cons_of_mem _ ho
            · rw [if_neg hp]; exact ho
          · by_cases hvnb : v = nb
            · subst hvnb
              refine Or.inl ?_
              rw [hname] at hv3
              rw [if_pos (hv3 ▸ hv4)]
              exact hv3 ▸ List.mem_cons_self _ _
            · exact Or.inr ⟨v, hv1, by simp [hvnb, hv2], hv3, hv4⟩

/-- The worklist-loop invariant tying the queue, the visited set and
the accumulated name list to the seed set. -/
structure BfsInv (g : CallGraph) (adj : Nat → List Nat)
    (seeds queue visited : List Nat) (out : List String) : Prop where
  queue_vis : ∀ v ∈ queue, v ∈ visited
  vis_nodes : ∀ v ∈ visited, lookupNode g v ≠ none
  vis_nodup : visited.Nodup
  sound : ∀ v ∈ visited, ReachFrom g adj seeds v
  closed : ∀ v ∈ visited, v ∉ queue → ∀ b, stepRel g adj v b → b ∈ visited
  seeds_vis : ∀ s ∈ seeds, s ∈ visited
  out_iff : ∀ nm, nm ∈ out ↔ ∃ v, v ∈ visited ∧ v ∉ seeds ∧
    nameOf g v = nm ∧ properName nm = true

theorem bfsInv_step (g : CallGraph) (adj : Nat → List Nat)
    (seeds : List Nat) (c : Nat) (rest visited : List Nat)
    (out : List String)
    (inv : BfsInv g adj seeds (c :: rest) visited out) :
    BfsInv g adj seeds (expandNbrs g (adj c) (rest, visited, out)).1
      (expandNbrs g (adj c) (rest, visited, out)).2.1
      (expandNbrs g (adj c) (rest, visited, out)).2.2 := by
  have hmono := expandNbrs_vis_mono g (adj c) rest visited out
  have hqiff := expandNbrs_queue_iff g (adj c) rest visited out
  have hsub := expandNbrs_vis_sub g (adj c) rest visited out
  have hcomp := expandNbrs_complete g (adj c) rest visited out
  have hc_vis : c ∈ visited := inv.queue_vis c (List.mem_cons_self _ _)
  refine ⟨?_, ?_, ?_, ?_, ?_, ?_, ?_⟩
  · intro v hv
    rcases (hqiff v).mp hv with h | ⟨h1, _⟩
    · exact hmono (inv.queue_vis v (List.mem_cons_of_mem _ h))
    · exact h1
  · intro v hv
    rcases hsub v hv with h | ⟨_, h2⟩
    · exact inv.vis_nodes v h
    · exact h2
  · exact expandNbrs_nodup g (adj c) rest visited out inv.vis_nodup
  · intro v hv
    by_cases hvis : v ∈ visited
    · exact inv.sound v hvis
    · rcases hsub v hv with h | ⟨h1, h2⟩
      · exact absurd h hvis
      · rcases inv.sound c hc_vis with ⟨s, hs, hr⟩
        exact ⟨s, hs, hr.tail ⟨h1, h2⟩⟩
  · intro v hv hvq b hb
    by_cases hvis : v ∈ visited
    · by_cases hvc : v = c
      · subst hvc
        exact hcomp b hb.1 hb.2
      · have hvrest : v ∉ rest := fun hr =>
          hvq ((hqiff v).mpr (Or.inl hr))
        have hvcr : v ∉ c :: rest := by simp [hvc, hvrest]
        exact hmono (inv.closed v hvis hvcr b hb)
    · exact absurd ((hqiff v).mpr (Or.inr ⟨hv, hvis⟩)) hvq
  · exact fun s hs => hmono (inv.seeds_vis s hs)
  · intro nm
    rw [expandNbrs_out_iff g (adj c) rest visited out nm]
    constructor
    · rintro (ho | ⟨v, hv1, hv2, hv3, hv4⟩)
      · rcases (inv.out_iff nm).mp ho with ⟨v, h1, h2, h3, h4⟩
        exact ⟨v, hmono h1, h2, h3, h4⟩
      · exact ⟨v, hv1, fun hvs => hv2 (inv.seeds_vis v hvs), hv3, hv4⟩
    · rintro ⟨v, hv1, hv2, hv3, hv4⟩
      by_cases hvis : v ∈ visited
      · exact Or.inl ((inv.out_iff nm).mpr ⟨v, hvis, hv2, hv3, hv4⟩)
      · exact Or.inr ⟨v, hv1, hvis, hv3, hv4⟩

theorem vis_length_le (g : CallGraph) (visited : List Nat)
    (hnodes : ∀ v ∈ visited, lookupNode g v ≠ none)
    (hnd : visited.Nodup) : visited.length ≤ g.nodes.length := by
  have hsub : visited ⊆ g.nodes.map (·.nid) := fun v hv =>
    (lookupNode_ne_none_iff g v).mp (hnodes v hv)
  have h1 : visited.toFinset.card = visited.length :=
    List.toFinset_card_of_nodup hnd
  have h2 : visited.toFinset ⊆ (g.nodes.map (·.nid)).toFinset := by
    intro x hx
    simp only [List.mem_toFinset] at hx ⊢
    exact hsub hx
  calc visited.length = visited.toFinset.card := h1.symm
    _ ≤ (g.nodes.map (·.nid)).toFinset.card := Finset.card_le_card h2
    _ ≤ (g.nodes.map (·.nid)).length :=
        (g.nodes.map (·.nid)).toFinset_card_le
    _ = g.nodes.length := by simp

/-- Run the worklist to exhaustion: with enough fuel the queue drains,
and the invariant holds of the final state with an empty queue (hence
the visited set is closed under the step relation). -/
theorem bfsLoop_inv (g : CallGraph) (adj : Nat → List Nat)
    (seeds : List Nat) :
    ∀ (fuel : Nat) (queue visited : List Nat) (out : List String),
      BfsInv g adj seeds queue visited out →
      queue.length + g.nodes.length ≤ fuel + visited.length →
      BfsInv g adj seeds []
        (bfsLoop g adj fuel queue visited out).1
        (bfsLoop g adj fuel queue visited out).2 := by
  intro fuel
  induction fuel with
  | zero =>
    intro queue visited out inv harith
    have hlen := vis_length_le g visited inv.vis_nodes inv.vis_nodup
    have hq : queue = [] := by
      cases queue with
      | nil => rfl
      | cons c rest =>
        exfalso
        simp only [List.length_cons] at harith
        omega
    subst hq
    exact inv
  | succ fuel ih =>
    intro queue visited out inv harith
    cases queue with
    | nil => exact inv
    | cons c rest =>
      simp only [bfsLoop]
      have hstep := bfsInv_step g adj seeds c rest visited out inv
      have hlen := expandNbrs_length g (adj c) rest visited out
      apply ih _ _ _ hstep
      simp only [List.length_cons] at harith
      omega

theorem bfsInv_init (g : CallGraph) (adj : Nat → List Nat)
    (seeds : List CGNode)
    (hsub : ∀ n ∈ seeds, n ∈ g.nodes)
    (hnd : (seeds.map (·.nid)).Nodup) :
    BfsInv g adj (seeds.map (·.nid)) (seeds.map (·.nid))
      (seeds.map (·.nid)) [] := by
  refine ⟨fun v hv => hv, ?_, hnd, ?_, ?_, fun s hs => hs, ?_⟩
  · intro v hv
    rcases List.mem_map.mp hv with ⟨n, hn, rfl⟩
    exact (lookupNode_ne_none_iff g n.nid).mpr
      (List.mem_map_of_mem _ (hsub n hn))
  · intro v hv
    exact ⟨v, hv, Relation.ReflTransGen.refl⟩
  · intro v hv hvq
    exact absurd hv hvq
  · intro nm
    simp only [List.not_mem_nil, false_iff]
    rintro ⟨v, h1, h2, _⟩
    exact h2 h1

theorem bfsRun_inv (g : CallGraph) (adj : Nat → List Nat)
    (seeds : List CGNode)
    (hsub : ∀ n ∈ seeds, n ∈ g.nodes)
    (hnd : (seeds.map (·.nid)).Nodup) :
    BfsInv g adj (seeds.map (·.nid)) []
      (bfsRun g adj seeds).1 (bfsRun g adj seeds).2 := by
  apply bfsLoop_inv
  · exact bfsInv_init g adj seeds hsub hnd
  · omega

/-- The visited set of the traversal is exactly the set of nodes
reachable from the seeds. -/
theorem bfsRun_visited_iff (g : CallGraph) (adj : Nat → List Nat)
    (seeds : List CGNode)
    (hsub : ∀ n ∈ seeds, n ∈ g.nodes)
    (hnd : (seeds.map (·.nid)).Nodup) (v : Nat) :
    v ∈ (bfsRun g adj seeds).1 ↔
      ReachFrom g adj (seeds.map (·.nid)) v := by
  have inv := bfsRun_inv g adj seeds hsub hnd
  constructor
  · exact inv.sound v
  · rintro ⟨s, hs, hr⟩
    induction hr with
    | refl => exact inv.seeds_vis s hs
    | tail _ hstep ih =>
      exact inv.closed _ ih (List.not_mem_nil _) _ hstep

theorem bfsRun_out_iff (g : CallGraph) (adj : Nat → List Nat)
    (seeds : List CGNode)
    (hsub : ∀ n ∈ seeds, n ∈ g.nodes)
    (hnd : (seeds.map (·.nid)).Nodup) (nm : String) :
    nm ∈ (bfsRun g adj seeds).2 ↔
      ∃ v, v ∈ (bfsRun g adj seeds).1 ∧ v ∉ seeds.map (·.nid) ∧
        nameOf g v = nm ∧ properName nm = true :=
  (bfsRun_inv g adj seeds hsub hnd).out_iff nm

theorem find?_nid_eq (l : List CGNode) (hnd : (l.map (·.nid)).Nodup)
    {n : CGNode} (hn : n ∈ l) :
    l.find? (fun m => m.nid == n.nid) = some n := by
  induction l with
  | nil => cases hn
  | cons m l ih =>
    simp only [List.map_cons, List.nodup_cons] at hnd
    rcases List.mem_cons.mp hn with h | h
    · subst h
      rw [List.find?_cons_of_pos _ (by simp)]
    · have hne : ¬ ((fun m : CGNode => m.nid == n.nid) m = true) := by
        simp only [beq_iff_eq]
        intro he
        exact hnd.1 (he ▸ List.mem_map_of_mem _ h)
      rw [@List.find?_cons_of_neg _ (fun m : CGNode => m.nid == n.nid) m l hne]
      exact ih hnd.2 h

theorem lookupNode_of_mem (g : CallGraph) (hwf : g.WF) {n : CGNode}
    (hn : n ∈ g.nodes) : lookupNode g n.nid = some n :=
  find?_nid_eq g.nodes hwf hn

/-- Membership in the name set returned by a query traversal: either
the formatted name of a seed node (recorded unconditionally), or the
formatted name of a reachable node that passes the `properName`
filter. -/
theorem bfsNames_mem_iff (g : CallGraph) (adj : Nat → List Nat)
    (seeds : List CGNode) (hwf : g.WF)
    (hsub : ∀ n ∈ seeds, n ∈ g.nodes)
    (hnd : (seeds.map (·.nid)).Nodup) (nm : String) :
    nm ∈ bfsNames g adj seeds ↔
      (∃ n ∈ seeds, formatFuncName n.func = nm) ∨
      (∃ v, ReachFrom g adj (seeds.map (·.nid)) v ∧ nameOf g v = nm ∧
        properName nm = true) := by
  unfold bfsNames
  rw [List.mem_append]
  constructor
  · rintro (h | h)
    · rcases List.mem_map.mp h with ⟨n, hn, rfl⟩
      exact Or.inl ⟨n, hn, rfl⟩
    · rcases (bfsRun_out_iff g adj seeds hsub hnd nm).mp h with
        ⟨v, h1, _, h3, h4⟩
      exact Or.inr ⟨v, (bfsRun_visited_iff g adj seeds hsub hnd v).mp h1,
        h3, h4⟩
  · rintro (⟨n, hn, rfl⟩ | ⟨v, hr, hnm, hp⟩)
    · exact Or.inl (List.mem_map_of_mem _ hn)
    · by_cases hvs : v ∈ seeds.map (·.nid)
      · rcases List.mem_map.mp hvs with ⟨n, hn, rfl⟩
        have hname : nameOf g n.nid = formatFuncName n.func :=
          nameOf_eq (lookupNode_of_mem g hwf (hsub n hn))
        refine Or.inl (List.mem_map.mpr ⟨n, hn, ?_⟩)
        rw [← hnm, hname]
      · exact Or.inr ((bfsRun_out_iff g adj seeds hsub hnd nm).mpr
          ⟨v, (bfsRun_visited_iff g adj seeds hsub hnd v).mpr hr, hvs,
            hnm, hp⟩)

theorem findFunctionNodes_sub (g : CallGraph) (target : String) :
    ∀ n ∈ findFunctionNodes g target, n ∈ g.nodes :=
  fun _ hn => List.mem_of_mem_filter hn

theorem findFunctionNodes_nodup (g : CallGraph) (target : String)
    (hwf : g.WF) : ((findFunctionNodes g target).map (·.nid)).Nodup :=
  List.Nodup.sublist ((List.filter_sublist _).map _) hwf

/-- The result of a successful `findCallersTo` query, characterized:
seed names plus proper names of nodes reachable along incoming
edges. -/
theorem findCallersTo_mem_iff (g : CallGraph) (hwf : g.WF)
    (target : String) (l : List String)
    (h : findCallersTo g target = .ok l) (nm : String) :
    nm ∈ l ↔
      (∃ n ∈ findFunctionNodes g target, formatFuncName n.func = nm) ∨
      (∃ v, ReachFrom g (inNeighbors g)
          ((findFunctionNodes g target).map (·.nid)) v ∧
        nameOf g v = nm ∧ properName nm = true) := by
  unfold findCallersTo at h
  by_cases he : (findFunctionNodes g target).isEmpty
  · rw [if_pos he] at h; cases h
  · rw [if_neg he] at h
    cases h
    exact bfsNames_mem_iff g (inNeighbors g) _ hwf
      (findFunctionNodes_sub g target) (findFunctionNodes_nodup g target hwf)
      nm

/-- Symmetric characterization for `findCalleesFrom`. -/
theorem findCalleesFrom_mem_iff (g : CallGraph) (hwf : g.WF)
    (source : String) (l : List String)
    (h : findCalleesFrom g source = .ok l) (nm : String) :
    nm ∈ l ↔
      (∃ n ∈ findFunctionNodes g source, formatFuncName n.func = nm) ∨
      (∃ v, ReachFrom g (outNeighbors g)
          ((findFunctionNodes g source).map (·.nid)) v ∧
        nameOf g v = nm ∧ properName nm = true) := by
  unfold findCalleesFrom at h
  by_cases he : (findFunctionNodes g source).isEmpty
  · rw [if_pos he] at h; cases h
  · rw [if_neg he] at h
    cases h
    exact bfsNames_mem_iff g (outNeighbors g) _ hwf
      (findFunctionNodes_sub g source) (findFunctionNodes_nodup g source hwf)
      nm

theorem findPathSegment_ok_destruct (g : CallGraph) (source target : String)
    (l : List String) (h : findPathSegment g source target = .ok l) :
    ∃ A B, findCalleesFrom g source = .ok A ∧
      findCallersTo g target = .ok B ∧
      l = A.filter (fun nm => decide (nm ∈ B)) := by
  unfold findPathSegment at h
  cases hA : findCalleesFrom g source with
  | error e => rw [hA] at h; simp [Bind.bind, Except.bind] at h
  | ok A =>
    rw [hA] at h
    cases hB : findCallersTo g target with
    | error e => rw [hB] at h; simp [Bind.bind, Except.bind] at h
    | ok B =>
      rw [hB] at h
      simp only [Bind.bind, Except.bind] at h
      refine ⟨A, B, rfl, rfl, ?_⟩
      split at h
      · cases h
      · cases h
        rfl

/-! ## Concrete graphs used by the claim witnesses and counterexamples -/

/-- The spec scenario graph: `main → Server.Start → Database.Query`
(with a pointer receiver on `Start` and a value receiver on
`Query`). -/
def gScen : CallGraph :=
  { nodes := [⟨0, some ⟨"main", none, some "main"⟩⟩,
              ⟨1, some ⟨"Start", some (.ptr (.named "Server")), some "main"⟩⟩,
              ⟨2, some ⟨"Query", some (.named "Database"), some "main"⟩⟩],
    edges := [(0, 1), (1, 2)] }

/-- Two unconnected components `S → f` (package p) and `f → T`
(package q): the two distinct functions named `f` collapse to the same
formatted name. -/
def gC1 : CallGraph :=
  { nodes := [⟨0, some ⟨"S", none, some "p"⟩⟩,
              ⟨1, some ⟨"f", none, some "p"⟩⟩,
              ⟨2, some ⟨"f", none, some "q"⟩⟩,
              ⟨3, some ⟨"T", none, some "q"⟩⟩],
    edges := [(0, 1), (2, 3)] }

/-- An `init` function calling `T`. -/
def gC2 : CallGraph :=
  { nodes := [⟨0, some ⟨"init", none, some "p"⟩⟩,
              ⟨1, some ⟨"T", none, some "p"⟩⟩],
    edges := [(0, 1)] }

/-- `main → init → T`: reachability must propagate through the
synthetic `init` node. -/
def gC3b : CallGraph :=
  { nodes := [⟨0, some ⟨"main", none, some "p"⟩⟩,
              ⟨1, some ⟨"init", none, some "p"⟩⟩,
              ⟨2, some ⟨"T", none, some "p"⟩⟩],
    edges := [(0, 1), (1, 2)] }

/-! ## Claim C1 -/

/-- C1 counterexample: in `gC1`, `findPathSegment "S" "T"` succeeds
with `["f"]` — the intersection of `calleesFrom "S"` and
`callersTo "T"` is non-empty — even though no directed call path
exists from any node matching `"S"` to any node matching `"T"`
(membership is by formatted name, and two distinct functions named
`f` collapse). This refutes "the intersection is empty iff no
directed call path exists from S to T". -/
theorem findPathSegment_claim_counterexample :
    findPathSegment gC1 "S" "T" = .ok ["f"] ∧
    ¬ (∃ sn ∈ findFunctionNodes gC1 "S", ∃ tn ∈ findFunctionNodes gC1 "T",
        Relation.ReflTransGen (stepRel gC1 (outNeighbors gC1))
          sn.nid tn.nid) := by
  refine ⟨rfl, ?_⟩
  rintro ⟨sn, hsn, tn, htn, hr⟩
  have hsn' : sn.nid = 0 := by
    have hfix : findFunctionNodes gC1 "S" =
        [⟨0, some ⟨"S", none, some "p"⟩⟩] := rfl
    rw [hfix] at hsn
    rcases List.mem_singleton.mp hsn with rfl
    rfl
  have htn' : tn.nid = 3 := by
    have hfix : findFunctionNodes gC1 "T" =
        [⟨3, some ⟨"T", none, some "q"⟩⟩] := rfl
    rw [hfix] at htn
    rcases List.mem_singleton.mp htn with rfl
    rfl
  rw [hsn', htn'] at hr
  have hreach : ReachFrom gC1 (outNeighbors gC1)
      ((findFunctionNodes gC1 "S").map (·.nid)) 3 :=
    ⟨0, by decide, hr⟩
  have h3 : 3 ∈ (bfsRun gC1 (outNeighbors gC1)
      (findFunctionNodes gC1 "S")).1 :=
    (bfsRun_visited_iff gC1 (outNeighbors gC1) _
      (findFunctionNodes_sub gC1 "S")
      (findFunctionNodes_nodup gC1 "S" (by decide)) 3).mpr hreach
  exact absurd h3 (by decide)

/-- C1 (amended): when both sub-queries succeed, `findPathSegment`
returns exactly the intersection of their name sets and fails with
`NoPathError` exactly when that intersection is empty; and whenever a
directed call path exists from a source-matching node to a
target-matching node whose formatted name passes the proper-name
filter, the intersection is non-empty and the query succeeds. The
converse direction of the original claim (non-empty intersection
implies a path) is false — see the counterexample — because
membership is by formatted name and distinct functions may share a
name. -/
theorem findPathSegment_amended (g : CallGraph) (hwf : g.WF)
    (source target : String) (A B : List String)
    (hA : findCalleesFrom g source = .ok A)
    (hB : findCallersTo g target = .ok B) :
    (findPathSegment g source target =
      if (A.filter (fun nm => decide (nm ∈ B))).isEmpty
      then .error (.noPath source target)
      else .ok (A.filter (fun nm => decide (nm ∈ B)))) ∧
    (∀ sn ∈ findFunctionNodes g source, ∀ tn ∈ findFunctionNodes g target,
      Relation.ReflTransGen (stepRel g (outNeighbors g)) sn.nid tn.nid →
      properName (formatFuncName tn.func) = true →
      ∃ l, findPathSegment g source target = .ok l ∧
        formatFuncName tn.func ∈ l) := by
  have hseg : findPathSegment g source target =
      if (A.filter (fun nm => decide (nm ∈ B))).isEmpty
      then .error (.noPath source target)
      else .ok (A.filter (fun nm => decide (nm ∈ B))) := by
    unfold findPathSegment
    rw [hA, hB]
    rfl
  refine ⟨hseg, ?_⟩
  intro sn hsn tn htn hpath hproper
  have hnameOf : nameOf g tn.nid = formatFuncName tn.func :=
    nameOf_eq (lookupNode_of_mem g hwf (findFunctionNodes_sub g target tn htn))
  have hnmA : formatFuncName tn.func ∈ A := by
    rw [findCalleesFrom_mem_iff g hwf source A hA]
    exact Or.inr ⟨tn.nid,
      ⟨sn.nid, List.mem_map_of_mem _ hsn, hpath⟩, hnameOf, hproper⟩
  have hnmB : formatFuncName tn.func ∈ B := by
    rw [findCallersTo_mem_iff g hwf target B hB]
    exact Or.inl ⟨tn, htn, rfl⟩
  have hmem : formatFuncName tn.func ∈
      A.filter (fun nm => decide (nm ∈ B)) :=
    List.mem_filter.mpr ⟨hnmA, by simp [hnmB]⟩
  have hne : A.filter (fun nm => decide (nm ∈ B)) ≠ [] :=
    List.ne_nil_of_mem hmem
  refine ⟨A.filter (fun nm => decide (nm ∈ B)), ?_, hmem⟩
  rw [hseg, if_neg (by simp [List.isEmpty_iff, hne])]

/-- Witness for `findPathSegment_amended`, on the spec's scenario
graph. -/
theorem findPathSegment_amended_witness :
    gScen.WF ∧
    findCalleesFrom gScen "main" =
      .ok ["main", "Database.Query", "Server.Start"] ∧
    findCallersTo gScen "Database.Query" =
      .ok ["Database.Query", "main", "Server.Start"] ∧
    findPathSegment gScen "main" "Database.Query" =
      .ok ["main", "Database.Query", "Server.Start"] := by
  have h := findPathSegment_amended gScen (by decide) "main" "Database.Query"
    ["main", "Database.Query", "Server.Start"]
    ["Database.Query", "main", "Server.Start"] rfl rfl
  refine ⟨by decide, rfl, rfl, ?_⟩
  rw [h.1]
  rfl

/-! ## Claim C2 -/

/-- C2 counterexample: in `gC2` (`init → T`), the `init` node is
reachable from the seed of `callersTo "T"` along incoming edges, but
neither its function name `"init"` nor its formatted name `""`
appears in the returned set `["T"]`: the result is not "the set of
names of all nodes reachable from the matching seed nodes". -/
theorem findCallersTo_claim_counterexample :
    findCallersTo gC2 "T" = .ok ["T"] ∧
    ReachFrom gC2 (inNeighbors gC2)
      ((findFunctionNodes gC2 "T").map (·.nid)) 0 ∧
    (funcOf gC2 0).map (·.name) = some "init" ∧
    nameOf gC2 0 = "" ∧
    "init" ∉ ["T"] ∧ "" ∉ ["T"] := by
  exact ⟨rfl,
    ⟨1, by decide, Relation.ReflTransGen.single ⟨by decide, by decide⟩⟩,
    rfl, rfl, by decide, by decide⟩

/-- C2 (amended): `findCallersTo` fails with `NotFoundError` exactly
when no node matches; on success the returned set consists of the
seed nodes' formatted names (added unconditionally) together with the
formatted names of the nodes reachable along incoming edges that pass
the proper-name filter — synthetic (`""`-formatted) and `"<root>"`
names of non-seed nodes are excluded. -/
theorem findCallersTo_amended (g : CallGraph) (hwf : g.WF)
    (target : String) :
    (findFunctionNodes g target = [] →
      findCallersTo g target = .error (.notFound target)) ∧
    (findFunctionNodes g target ≠ [] →
      ∃ l, findCallersTo g target = .ok l ∧ ∀ nm,
        nm ∈ l ↔
          (∃ n ∈ findFunctionNodes g target, formatFuncName n.func = nm) ∨
          (∃ v, ReachFrom g (inNeighbors g)
              ((findFunctionNodes g target).map (·.nid)) v ∧
            nameOf g v = nm ∧ properName nm = true)) := by
  constructor
  · intro h
    unfold findCallersTo
    rw [if_pos (by simp [h])]
  · intro h
    have he : ¬ (findFunctionNodes g target).isEmpty = true := by
      simp [List.isEmpty_iff, h]
    refine ⟨bfsNames g (inNeighbors g) (findFunctionNodes g target), ?_, ?_⟩
    · unfold findCallersTo
      rw [if_neg he]
    · exact fun nm => bfsNames_mem_iff g (inNeighbors g) _ hwf
        (findFunctionNodes_sub g target)
        (findFunctionNodes_nodup g target hwf) nm

/-- Witness for `findCallersTo_amended`, on the spec's scenario graph:
`callersTo "Database.Query"` contains `"main"` because of the
transitive call path. -/
theorem findCallersTo_amended_witness :
    gScen.WF ∧ findFunctionNodes gScen "Database.Query" ≠ [] ∧
    ∃ l, findCallersTo gScen "Database.Query" = .ok l ∧ "main" ∈ l := by
  rcases (findCallersTo_amended gScen (by decide) "Database.Query").2
    (by decide) with ⟨l, hl, hiff⟩
  refine ⟨by decide, by decide, l, hl, ?_⟩
  rw [hiff "main"]
  have h21 : stepRel gScen (inNeighbors gScen) 2 1 := ⟨by decide, by decide⟩
  have h10 : stepRel gScen (inNeighbors gScen) 1 0 := ⟨by decide, by decide⟩
  exact Or.inr ⟨0, ⟨2, by decide,
    (Relation.ReflTransGen.single h21).tail h10⟩, rfl, by decide⟩

/-! ## Claim C3 -/

/-- C3 counterexample: when a synthetic/initializer function is
itself a seed (here `callersTo "init"` in `gC2`), its formatted name
— the empty string, the formatter's rejection marker — is added
unconditionally and appears in the returned set, contradicting
"never appear in the returned name set — including when such a
function is a seed node". -/
theorem synthetic_never_returned_counterexample :
    funcOf gC2 0 = some ⟨"init", none, some "p"⟩ ∧
    formatFuncName (some ⟨"init", none, some "p"⟩) = "" ∧
    findCallersTo gC2 "init" = .ok [""] ∧
    ¬ (∀ nm ∈ [""], properName nm = true) := by
  refine ⟨rfl, rfl, rfl, ?_⟩
  intro h
  exact absurd (h "" (by decide)) (by decide)

/-- C3 (amended): in every successful query result, every name either
passes the proper-name filter (non-empty, not `"<root>"`) or is the
formatted name of a seed node — the unconditional seed insertion is
the only way a synthetic (empty-formatted) or `"<root>"` name can
appear; and synthetic nodes do propagate reachability: every node
reachable through any chain of edges (including through synthetic
nodes) whose own formatted name is proper appears in the result. -/
theorem synthetic_exclusion_amended (g : CallGraph) (hwf : g.WF) :
    (∀ target l, findCallersTo g target = .ok l →
      (∀ nm ∈ l, properName nm = true ∨
        ∃ n ∈ findFunctionNodes g target, formatFuncName n.func = nm) ∧
      (∀ v, ReachFrom g (inNeighbors g)
          ((findFunctionNodes g target).map (·.nid)) v →
        properName (nameOf g v) = true → nameOf g v ∈ l)) ∧
    (∀ source l, findCalleesFrom g source = .ok l →
      (∀ nm ∈ l, properName nm = true ∨
        ∃ n ∈ findFunctionNodes g source, formatFuncName n.func = nm) ∧
      (∀ v, ReachFrom g (outNeighbors g)
          ((findFunctionNodes g source).map (·.nid)) v →
        properName (nameOf g v) = true → nameOf g v ∈ l)) ∧
    (∀ source target l, findPathSegment g source target = .ok l →
      ∀ nm ∈ l, properName nm = true ∨
        ((∃ n ∈ findFunctionNodes g source, formatFuncName n.func = nm) ∧
         (∃ n ∈ findFunctionNodes g target, formatFuncName n.func = nm))) := by
  refine ⟨?_, ?_, ?_⟩
  · intro target l h
    constructor
    · intro nm hnm
      rcases (findCallersTo_mem_iff g hwf target l h nm).mp hnm with
        hseed | ⟨v, _, _, hp⟩
      · exact Or.inr hseed
      · exact Or.inl hp
    · intro v hr hp
      exact (findCallersTo_mem_iff g hwf target l h (nameOf g v)).mpr
        (Or.inr ⟨v, hr, rfl, hp⟩)
  · intro source l h
    constructor
    · intro nm hnm
      rcases (findCalleesFrom_mem_iff g hwf source l h nm).mp hnm with
        hseed | ⟨v, _, _, hp⟩
      · exact Or.inr hseed
      · exact Or.inl hp
    · intro v hr hp
      exact (findCalleesFrom_mem_iff g hwf source l h (nameOf g v)).mpr
        (Or.inr ⟨v, hr, rfl, hp⟩)
  · intro source target l h nm hnm
    rcases findPathSegment_ok_destruct g source target l h with
      ⟨A, B, hA, hB, rfl⟩
    have hmA : nm ∈ A := List.mem_of_mem_filter hnm
    have hmB : nm ∈ B := by
      have := List.of_mem_filter hnm
      simpa using this
    rcases (findCalleesFrom_mem_iff g hwf source A hA nm).mp hmA with
      hseedA | ⟨_, _, _, hp⟩
    · rcases (findCallersTo_mem_iff g hwf target B hB nm).mp hmB with
        hseedB | ⟨_, _, _, hp⟩
      · exact Or.inr ⟨hseedA, hseedB⟩
      · exact Or.inl hp
    · exact Or.inl hp

/-- Witness for `synthetic_exclusion_amended`: in `gC3b`
(`main → init → T`), `callersTo "T"` returns `["T", "main"]` — the
`init` node contributes no name, yet `main` is reached through it. -/
theorem synthetic_exclusion_amended_witness :
    gC3b.WF ∧ findCallersTo gC3b "T" = .ok ["T", "main"] ∧
    "main" ∈ ["T", "main"] ∧ "" ∉ ["T", "main"] := by
  have h := (synthetic_exclusion_amended gC3b (by decide)).1 "T"
    ["T", "main"] rfl
  have h21 : stepRel gC3b (inNeighbors gC3b) 2 1 := ⟨by decide, by decide⟩
  have h10 : stepRel gC3b (inNeighbors gC3b) 1 0 := ⟨by decide, by decide⟩
  have hmain := h.2 0
    ⟨2, by decide, (Relation.ReflTransGen.single h21).tail h10⟩
    (by decide)
  exact ⟨by decide, rfl, hmain, by decide⟩

/-! ## Event tracer (trace/trace.go)

The tracer's package-level mutable state (`depth`, `traces`,
thresholds, `colorize`, `panicStacks`, `panicPrinted`) becomes an
explicit `TracerState`; each exported function becomes a state
transition. Argument, return and panic values reach the tracer as
opaque `any` values that are only ever stringified, so they are
modelled as strings; terminal output is modelled as a list of emitted
events (the exact lipgloss formatting carries no information the
claims depend on). The monotonic clock (`runtime.nanotime`) and the
goroutine id are inputs of the transitions. -/

/-- `Entry` from trace.go. -/
structure Entry where
  name : String
  args : List String
  returns : List String
  depth : Int
  startNs : Int
  endNs : Int
  duration : Int
  gid : Nat
  file : String
  line : Int
  panicked : Bool
  panicVal : Option String
deriving DecidableEq, Repr

/-- Output events: entry/exit/panic lines and the buffered-stack dump
of `TraceOnPanic`. -/
inductive TraceEv where
  | enterLine (name : String)
  | exitLine (name : String)
  | panicLine (name : String) (payload : String)
  | stackDump (lines : List String)
deriving DecidableEq, Repr

structure TracerState where
  depth : Int
  traces : List Entry
  warnThresholdNs : Int
  hotThresholdNs : Int
  colorize : Bool
  panicStacks : Nat → List String
  panicPrinted : Bool

/-- The state established by `init()` in trace.go (1ms / 10ms
thresholds, colorize from `NO_COLOR`, empty stacks). -/
def initState (noColorUnset : Bool) : TracerState :=
  { depth := 0, traces := [], warnThresholdNs := 1000000,
    hotThresholdNs := 10000000, colorize := noColorUnset,
    panicStacks := fun _ => [], panicPrinted := false }

/-- The data `Trace` / `TraceOnPanic` capture at entry time and close
over for the completion closure. -/
structure TraceCtx where
  name : String
  args : List String
  depth : Int
  startNs : Int
  gid : Nat
  file : String
  line : Int
deriving DecidableEq, Repr

/-- `Trace(name, args...)` entry half: increment the depth counter,
capture start timestamp / goroutine id / caller location, print the
entry line. -/
def traceEnter (st : TracerState) (name : String) (args : List String)
    (startNs : Int) (gid : Nat) (file : String) (line : Int) :
    TracerState × TraceCtx × List TraceEv :=
  ({ st with depth := st.depth + 1 },
   { name := name, args := args, depth := st.depth + 1,
     startNs := startNs, gid := gid, file := file, line := line },
   [.enterLine name])

/-- The completion closure of `Trace`: capture the end timestamp,
compute the duration, detect a recovered panic, print the exit or
panic line, append the `Entry`, decrement the depth, and re-raise the
panic value if one was recovered (the third component). -/
def traceComplete (st : TracerState) (c : TraceCtx) (endNs : Int)
    (returns : List String) (recovered : Option String) :
    TracerState × List TraceEv × Option String :=
  let e : Entry :=
    { name := c.name, args := c.args, returns := returns,
      depth := c.depth, startNs := c.startNs, endNs := endNs,
      duration := endNs - c.startNs, gid := c.gid, file := c.file,
      line := c.line, panicked := recovered.isSome,
      panicVal := recovered }
  ({ st with traces := st.traces ++ [e], depth := st.depth - 1 },
   match recovered with
   | some r => [.panicLine c.name r]
   | none => [.exitLine c.name],
   recovered)

/-- `panicStacks[gid] = append(panicStacks[gid], entryMsg)`. -/
def pushStack (sts : Nat → List String) (gid : Nat) (msg : String) :
    Nat → List String :=
  fun g => if g = gid then sts gid ++ [msg] else sts g

/-- Pop the top entry of one goroutine's stack (empty stacks are
dropped from the Go map, which the function model represents as the
empty list). -/
def popStack (sts : Nat → List String) (gid : Nat) :
    Nat → List String :=
  fun g => if g = gid then (sts gid).dropLast else sts g

/-- `TraceOnPanic` entry half: push an entry description onto the
calling goroutine's stack (the formatted line text is abstracted to
the function name) and increment the depth. -/
def traceOnPanicEnter (st : TracerState) (name : String)
    (args : List String) (startNs : Int) (gid : Nat) (file : String)
    (line : Int) : TracerState × TraceCtx :=
  ({ st with
      depth := st.depth + 1
      panicStacks := pushStack st.panicStacks gid name },
   { name := name, args := args, depth := st.depth + 1,
     startNs := startNs, gid := gid, file := file, line := line })

/-- The completion closure of `TraceOnPanic`. On a recovered panic:
dump the goroutine's buffered stack only if `panicPrinted` is not yet
set, set it, print the panic line, append the entry marked
`panicked` with the payload, decrement depth, re-raise. On normal
completion: pop the goroutine's stack, append the entry, decrement
depth, print nothing. -/
def traceOnPanicComplete (st : TracerState) (c : TraceCtx) (endNs : Int)
    (returns : List String) (recovered : Option String) :
    TracerState × List TraceEv × Option String :=
  match recovered with
  | some r =>
    let e : Entry :=
      { name := c.name, args := c.args, returns := returns,
        depth := c.depth, startNs := c.startNs, endNs := endNs,
        duration := endNs - c.startNs, gid := c.gid, file := c.file,
        line := c.line, panicked := true, panicVal := some r }
    ({ st with
        panicPrinted := true
        traces := st.traces ++ [e]
        depth := st.depth - 1 },
     (if st.panicPrinted then []
      else [TraceEv.stackDump (st.panicStacks c.gid)]) ++
       [.panicLine c.name r],
     some r)
  | none =>
    let e : Entry :=
      { name := c.name, args := c.args, returns := returns,
        depth := c.depth, startNs := c.startNs, endNs := endNs,
        duration := endNs - c.startNs, gid := c.gid, file := c.file,
        line := c.line, panicked := false, panicVal := none }
    ({ st with
        panicStacks := popStack st.panicStacks c.gid
        traces := st.traces ++ [e]
        depth := st.depth - 1 },
     [], none)

/-- `GetTraces` (functional content; the copy semantics are modelled
separately in the heap model below). -/
def GetTraces (st : TracerState) : List Entry :=
  st.traces

/-- `Reset` from trace.go: clear traces, zero the depth, clear the
per-goroutine stacks and the panic-printed flag. -/
def emptyStacks : Nat → List String :=
  fun _ => []

def Reset (st : TracerState) : TracerState :=
  { st with
      traces := []
      depth := 0
      panicStacks := emptyStacks
      panicPrinted := false }

/-- `GetHotPaths`: the entries whose duration reaches the hot
threshold, in stored order. -/
def GetHotPaths (st : TracerState) : List Entry :=
  st.traces.filter (fun e => decide (e.duration ≥ st.hotThresholdNs))

/-- `SetThresholds`. -/
def SetThresholds (st : TracerState) (warnNs hotNs : Int) : TracerState :=
  { st with warnThresholdNs := warnNs, hotThresholdNs := hotNs }

/-- `SetColorize`. -/
def SetColorize (st : TracerState) (enabled : Bool) : TracerState :=
  { st with colorize := enabled }

/-- The durations of the entries for one function, in stored order
(the filtering loop at the top of `PrintFunctionStats`). -/
def functionDurations (st : TracerState) (name : String) : List Int :=
  (st.traces.filter (fun e => e.name == name)).map (·.duration)

/-- The statistics `PrintFunctionStats` prints. `codeVariance` is the
value the `variance` float accumulates, modelled in exact rational
arithmetic. -/
structure FuncStats where
  count : Nat
  total : Int
  minD : Int
  maxD : Int
  mean : Int
  median : Int
  p95 : Int
  p99 : Int
  codeVariance : ℚ
deriving DecidableEq, Repr

/-- The variance loop of `PrintFunctionStats` (`float64` accumulation
modelled as exact rationals): `Σ (d − float64(mean))²` over the
durations, divided by the count, where `mean` is the already
integer-truncated mean. -/
def codeVarianceOf (ds : List Int) (mean : Int) : ℚ :=
  (ds.foldl (fun acc (d : Int) => acc + ((d : ℚ) - (mean : ℚ)) ^ 2) 0) /
    (ds.length : ℚ)

/-- The statistics computation of `PrintFunctionStats` on the
collected durations. `slices.Sort` (ascending) is modelled by
insertion sort — only the sorted result is observable. The percentile
indices `int(float64(count-1) * 0.95)` are modelled by the exact
floor `(count-1)*95/100` (`float64` rounding coincides with the exact
value for all realistic counts), and the `float64` variance
accumulation about `meanF := float64(mean)` — the integer-truncated
mean — is modelled in exact rational arithmetic. -/
def computeFunctionStats (ds0 : List Int) : FuncStats :=
  let ds := List.insertionSort (· ≤ ·) ds0
  let count := ds.length
  let total := ds.foldl (· + ·) 0
  let mean := total.tdiv count
  { count := count
    total := total
    minD := ds.getD 0 0
    maxD := ds.getD (count - 1) 0
    mean := mean
    median := if count % 2 = 0
      then (ds.getD (count / 2 - 1) 0 + ds.getD (count / 2) 0).tdiv 2
      else ds.getD (count / 2) 0
    p95 := ds.getD ((count - 1) * 95 / 100) 0
    p99 := ds.getD ((count - 1) * 99 / 100) 0
    codeVariance := codeVarianceOf ds mean }

/-- `PrintFunctionStats(name)`: `none` models the "No invocations
recorded" early return. -/
def printFunctionStats (st : TracerState) (name : String) :
    Option FuncStats :=
  if (functionDurations st name).isEmpty then none
  else some (computeFunctionStats (functionDurations st name))

/-- The exact rational mean of a list of durations (the mean the
spec's "population standard deviation" refers to). -/
def meanQ (ds : List Int) : ℚ :=
  (ds.map (fun d => (d : ℚ))).sum / (ds.length : ℚ)

/-- The population variance about the exact mean — the square of the
spec's "population standard deviation of the durations". Stated from
the spec's words, for comparison with `codeVariance`. -/
def popVariance (ds : List Int) : ℚ :=
  ((ds.map (fun d => ((d : ℚ) - meanQ ds) ^ 2)).sum) / (ds.length : ℚ)

/-- `int64(math.Sqrt(q))` for a non-negative exact `q`:
`⌊√q⌋ = Nat.sqrt ⌊q⌋`. -/
def stdFloor (q : ℚ) : ℕ :=
  Nat.sqrt ⌊q⌋.toNat

/-! ## Helper lemmas about sorted lists -/

theorem sorted_getD_zero_le (l : List Int) (h : l.Sorted (· ≤ ·))
    (hne : l ≠ []) : ∀ d ∈ l, l.getD 0 0 ≤ d := by
  intro d hd
  rcases List.getElem_of_mem hd with ⟨i, hi, rfl⟩
  have h0 : 0 < l.length := List.length_pos.mpr hne
  have hle : (⟨0, h0⟩ : Fin l.length) ≤ ⟨i, hi⟩ := Nat.zero_le _
  have := List.Sorted.rel_get_of_le h hle
  simpa [List.getD_eq_getElem?_getD, List.getElem?_eq_getElem h0,
    List.get_eq_getElem] using this

theorem sorted_le_getD_last (l : List Int) (h : l.Sorted (· ≤ ·))
    (hne : l ≠ []) : ∀ d ∈ l, d ≤ l.getD (l.length - 1) 0 := by
  intro d hd
  rcases List.getElem_of_mem hd with ⟨i, hi, rfl⟩
  have hlast : l.length - 1 < l.length :=
    Nat.sub_lt (List.length_pos.mpr hne) one_pos
  have hle : (⟨i, hi⟩ : Fin l.length) ≤ ⟨l.length - 1, hlast⟩ :=
    Nat.le_sub_one_of_lt hi
  have := List.Sorted.rel_get_of_le h hle
  simpa [List.getD_eq_getElem?_getD, List.getElem?_eq_getElem hlast,
    List.get_eq_getElem] using this

theorem getD_mem (l : List Int) (i : Nat) (hi : i < l.length) :
    l.getD i 0 ∈ l := by
  rw [List.getD_eq_getElem?_getD, List.getElem?_eq_getElem hi]
  exact List.getElem_mem hi

theorem foldl_add_eq_sum_map (f : Int → ℚ) (l : List Int) :
    l.foldl (fun acc d => acc + f d) 0 = (l.map f).sum := by
  rw [List.sum_eq_foldl, List.foldl_map]

theorem codeVarianceOf_eq (ds : List Int) (mean : Int) :
    codeVarianceOf ds mean =
      ((ds.map (fun (d : Int) => ((d : ℚ) - (mean : ℚ)) ^ 2)).sum) /
        (ds.length : ℚ) := by
  unfold codeVarianceOf
  rw [foldl_add_eq_sum_map]

/-! ## Claim C4 -/

/-- The shape of the entry appended by a completion closure: appended
at the end, carrying the captured start/end timestamps, with
`duration = endNs − startNs ≥ 0`. -/
def AppendsDurEntry (oldTraces newTraces : List Entry)
    (startNs endNs : Int) : Prop :=
  ∃ e, newTraces = oldTraces ++ [e] ∧ e.startNs = startNs ∧
    e.endNs = endNs ∧ e.duration = e.endNs - e.startNs ∧ 0 ≤ e.duration

/-- C4: every entry appended by a `Trace` or `TraceOnPanic`
completion has `Duration = EndNs − StartNs`, and under a
non-decreasing monotonic clock (`startNs ≤ endNs` for the call) the
duration is non-negative. -/
theorem duration_invariant (st : TracerState) (c : TraceCtx)
    (endNs : Int) (returns : List String) (recovered : Option String)
    (hmono : c.startNs ≤ endNs) :
    AppendsDurEntry st.traces
      (traceComplete st c endNs returns recovered).1.traces
      c.startNs endNs ∧
    AppendsDurEntry st.traces
      (traceOnPanicComplete st c endNs returns recovered).1.traces
      c.startNs endNs := by
  constructor
  · exact ⟨_, rfl, rfl, rfl, rfl, Int.sub_nonneg.mpr hmono⟩
  · cases recovered with
    | some r => exact ⟨_, rfl, rfl, rfl, rfl, Int.sub_nonneg.mpr hmono⟩
    | none => exact ⟨_, rfl, rfl, rfl, rfl, Int.sub_nonneg.mpr hmono⟩

def ctxW : TraceCtx :=
  { name := "f", args := [], depth := 1, startNs := 2, gid := 1,
    file := "main.go", line := 3 }

/-- Witness for `duration_invariant` at a concrete call. -/
theorem duration_invariant_witness :
    ctxW.startNs ≤ 5 ∧
    (AppendsDurEntry (initState true).traces
      (traceComplete (initState true) ctxW 5 [] none).1.traces
      ctxW.startNs 5 ∧
    AppendsDurEntry (initState true).traces
      (traceOnPanicComplete (initState true) ctxW 5 [] none).1.traces
      ctxW.startNs 5) :=
  ⟨by decide, duration_invariant (initState true) ctxW 5 [] none (by decide)⟩

/-! ## Claim C5 -/

/-- C5: `GetHotPaths` returns exactly the subsequence (in stored
order) of entries with `duration ≥ hotThresholdNs`; `SetThresholds`
changes the two threshold fields and nothing else, so subsequent
classifications use the new threshold while stored entries are
untouched. -/
theorem getHotPaths_spec (st : TracerState) (warnNs hotNs : Int) :
    (GetHotPaths st).Sublist st.traces ∧
    (∀ e, e ∈ GetHotPaths st ↔
      e ∈ st.traces ∧ e.duration ≥ st.hotThresholdNs) ∧
    (SetThresholds st warnNs hotNs).warnThresholdNs = warnNs ∧
    (SetThresholds st warnNs hotNs).hotThresholdNs = hotNs ∧
    (SetThresholds st warnNs hotNs).traces = st.traces ∧
    (SetThresholds st warnNs hotNs).depth = st.depth ∧
    (SetThresholds st warnNs hotNs).colorize = st.colorize ∧
    (SetThresholds st warnNs hotNs).panicStacks = st.panicStacks ∧
    (SetThresholds st warnNs hotNs).panicPrinted = st.panicPrinted ∧
    GetHotPaths (SetThresholds st warnNs hotNs) =
      st.traces.filter (fun e => decide (e.duration ≥ hotNs)) := by
  refine ⟨List.filter_sublist _, ?_, rfl, rfl, rfl, rfl, rfl, rfl, rfl, rfl⟩
  intro e
  simp [GetHotPaths, List.mem_filter]

/-! ## Claim C6 -/

def mkEntry (name : String) (dur : Int) : Entry :=
  { name := name, args := [], returns := [], depth := 1, startNs := 0,
    endNs := dur, duration := dur, gid := 1, file := "main.go",
    line := 10, panicked := false, panicVal := none }

/-- Four recorded calls of `f` with durations 0, 0, 1, 2 ns. -/
def stC6 : TracerState :=
  { initState true with traces :=
      [mkEntry "f" 0, mkEntry "f" 0, mkEntry "f" 1, mkEntry "f" 2] }

/-- C6 counterexample: for durations `[0, 0, 1, 2]` the mean is 3/4,
truncated to 0 by the integer division `total / int64(count)`; the
variance the code accumulates about this truncated mean is 5/4,
whereas the population variance is 11/16 — and the printed (truncated)
standard deviations differ: `int64(sqrt(5/4)) = 1` but the population
standard deviation is `sqrt(11/16) < 1`. The reported value is
therefore not the population standard deviation. -/
theorem printFunctionStats_claim_counterexample :
    functionDurations stC6 "f" = [0, 0, 1, 2] ∧
    printFunctionStats stC6 "f" =
      some (computeFunctionStats [0, 0, 1, 2]) ∧
    (computeFunctionStats [0, 0, 1, 2]).codeVariance = 5/4 ∧
    popVariance [0, 0, 1, 2] = 11/16 ∧
    (computeFunctionStats [0, 0, 1, 2]).codeVariance ≠
      popVariance [0, 0, 1, 2] ∧
    stdFloor ((computeFunctionStats [0, 0, 1, 2]).codeVariance) = 1 ∧
    stdFloor (popVariance [0, 0, 1, 2]) = 0 := by
  have hs : List.insertionSort (· ≤ ·) ([0, 0, 1, 2] : List Int) =
      [0, 0, 1, 2] := rfl
  have ht : Int.tdiv 3 4 = 0 := rfl
  have hvar : (computeFunctionStats [0, 0, 1, 2]).codeVariance = 5/4 := by
    simp only [computeFunctionStats, codeVarianceOf, hs, List.length_cons,
      List.length_nil, List.foldl_cons, List.foldl_nil]
    norm_num [ht]
  have hpop : popVariance [0, 0, 1, 2] = 11/16 := by
    simp only [popVariance, meanQ, List.map_cons, List.map_nil,
      List.sum_cons, List.sum_nil, List.length_cons, List.length_nil]
    norm_num
  refine ⟨rfl, rfl, hvar, hpop, ?_, ?_, ?_⟩
  · rw [hvar, hpop]; norm_num
  · rw [hvar]
    have h : ⌊(5/4 : ℚ)⌋ = 1 := by norm_num
    rw [stdFloor, h]
    exact Nat.sqrt_one
  · rw [hpop]
    have h : ⌊(11/16 : ℚ)⌋ = 0 := by norm_num [Int.floor_eq_zero_iff]
    rw [stdFloor, h]
    exact Nat.sqrt_zero

/-- What `PrintFunctionStats` reports about the durations `ds0` of
the selected entries: `sorted` is a sorted permutation of them, and
every reported statistic is as the (amended) claim states — the
variance (hence the standard deviation) is computed about the
integer-truncated mean, not the exact population mean. -/
def FuncStatsSpec (ds0 : List Int) (s : FuncStats)
    (sorted : List Int) : Prop :=
  sorted.Perm ds0 ∧
  sorted.Sorted (· ≤ ·) ∧
  s.count = ds0.length ∧
  s.total = ds0.sum ∧
  (∀ d ∈ ds0, s.minD ≤ d ∧ d ≤ s.maxD) ∧
  s.minD ∈ ds0 ∧ s.maxD ∈ ds0 ∧
  s.mean = s.total.tdiv s.count ∧
  s.median = (if s.count % 2 = 0
    then (sorted.getD (s.count / 2 - 1) 0 +
      sorted.getD (s.count / 2) 0).tdiv 2
    else sorted.getD (s.count / 2) 0) ∧
  s.p95 = sorted.getD ((s.count - 1) * 95 / 100) 0 ∧
  s.p99 = sorted.getD ((s.count - 1) * 99 / 100) 0 ∧
  s.codeVariance =
    ((ds0.map (fun (d : Int) => ((d : ℚ) - (s.mean : ℚ)) ^ 2)).sum) /
      (s.count : ℚ)

/-- C6 (amended): `PrintFunctionStats` selects exactly the entries
with the given name, sorts their durations ascending, and reports
count, sum, min, max, truncated mean, median (average of the two
middle elements for even counts), 95th/99th percentiles at index
`⌊(n−1)·p⌋` of the sorted durations, and the standard deviation about
the *integer-truncated* mean (which differs from the population
standard deviation whenever the mean is not an integer — see the
counterexample). -/
theorem printFunctionStats_amended (st : TracerState) (fname : String)
    (h : functionDurations st fname ≠ []) :
    ∃ s sorted, printFunctionStats st fname = some s ∧
      FuncStatsSpec (functionDurations st fname) s sorted := by
  have perm := List.perm_insertionSort (· ≤ ·) (functionDurations st fname)
  have hsorted := List.sorted_insertionSort (· ≤ ·)
    (functionDurations st fname)
  have hne : List.insertionSort (· ≤ ·) (functionDurations st fname) ≠ [] := by
    intro hnil
    have hp : (functionDurations st fname).Perm [] := by
      rw [← hnil]
      exact perm.symm
    exact h (List.Perm.eq_nil hp)
  refine ⟨computeFunctionStats (functionDurations st fname),
    List.insertionSort (· ≤ ·) (functionDurations st fname),
    ?_, perm, hsorted, perm.length_eq, ?_, ?_, ?_, ?_, rfl, rfl, rfl, rfl, ?_⟩
  · unfold printFunctionStats
    rw [if_neg (by simp [List.isEmpty_iff, h])]
  · show List.foldl (· + ·) 0
      (List.insertionSort (· ≤ ·) (functionDurations st fname)) = _
    rw [← List.sum_eq_foldl]
    exact perm.sum_eq
  · intro d hd
    have hd' : d ∈ List.insertionSort (· ≤ ·) (functionDurations st fname) :=
      (perm.mem_iff).mpr hd
    exact ⟨sorted_getD_zero_le _ hsorted hne d hd',
      sorted_le_getD_last _ hsorted hne d hd'⟩
  · exact perm.subset (getD_mem _ 0 (List.length_pos.mpr hne))
  · exact perm.subset (getD_mem _ _
      (Nat.sub_lt (List.length_pos.mpr hne) one_pos))
  · show codeVarianceOf (List.insertionSort (· ≤ ·) (functionDurations st fname))
        (computeFunctionStats (functionDurations st fname)).mean = _
    rw [codeVarianceOf_eq, List.Perm.sum_eq (perm.map _)]
    rfl

/-- Witness for `printFunctionStats_amended` on the concrete state
`stC6`. -/
theorem printFunctionStats_amended_witness :
    functionDurations stC6 "f" ≠ [] ∧
    ∃ s sorted, printFunctionStats stC6 "f" = some s ∧
      FuncStatsSpec (functionDurations stC6 "f") s sorted :=
  ⟨by decide, printFunctionStats_amended stC6 "f" (by decide)⟩

/-! ## Claim C7 -/

/-- The number of buffered-stack dumps in an event list. -/
def countDumps (evs : List TraceEv) : Nat :=
  (evs.filter (fun e => match e with
    | .stackDump _ => true
    | _ => false)).length

/-- C7: when the `TraceOnPanic` completion closure detects an
in-flight panic it emits the calling goroutine's buffered stack only
if no panic has been printed yet (process-wide flag), sets the flag,
appends an entry with `Panicked = true` and the payload recorded, and
re-raises the same panic value; a second panic completion — on any
goroutine, with any context — after the first emits no dump. -/
theorem traceOnPanic_panic_contract (st : TracerState) (c : TraceCtx)
    (endNs : Int) (returns : List String) (r : String)
    (c2 : TraceCtx) (endNs2 : Int) (returns2 : List String)
    (r2 : String) :
    (traceOnPanicComplete st c endNs returns (some r)).2.2 = some r ∧
    (∃ e, (traceOnPanicComplete st c endNs returns (some r)).1.traces =
      st.traces ++ [e] ∧ e.panicked = true ∧ e.panicVal = some r) ∧
    (traceOnPanicComplete st c endNs returns (some r)).2.1 =
      (if st.panicPrinted then []
       else [TraceEv.stackDump (st.panicStacks c.gid)]) ++
        [.panicLine c.name r] ∧
    (traceOnPanicComplete st c endNs returns (some r)).1.panicPrinted =
      true ∧
    countDumps (traceOnPanicComplete st c endNs returns (some r)).2.1 =
      (if st.panicPrinted then 0 else 1) ∧
    countDumps (traceOnPanicComplete
      (traceOnPanicComplete st c endNs returns (some r)).1
      c2 endNs2 returns2 (some r2)).2.1 = 0 := by
  refine ⟨rfl, ⟨_, rfl, rfl, rfl⟩, rfl, rfl, ?_, ?_⟩
  · by_cases hp : st.panicPrinted
    · simp [traceOnPanicComplete, countDumps, hp]
    · simp [traceOnPanicComplete, countDumps, hp]
  · simp [traceOnPanicComplete, countDumps]

/-! ## Claim C8 -/

/-- C8: after `Reset`, regardless of prior state, `GetTraces` is
empty, the depth counter is zero, every per-goroutine panic stack is
cleared, the process-wide panic-printed flag is reset — and the
thresholds and color setting are untouched. -/
theorem reset_spec (st : TracerState) :
    GetTraces (Reset st) = [] ∧
    (Reset st).depth = 0 ∧
    (∀ gid, (Reset st).panicStacks gid = []) ∧
    (Reset st).panicPrinted = false ∧
    (Reset st).warnThresholdNs = st.warnThresholdNs ∧
    (Reset st).hotThresholdNs = st.hotThresholdNs ∧
    (Reset st).colorize = st.colorize :=
  ⟨rfl, rfl, fun _ => rfl, rfl, rfl, rfl, rfl⟩

/-! ## Claim C9: runBinary (cmd/gotrace/runner.go)

The steps `runBinary` performs, as an event sequence. The child's
execution and `cmd.Wait()` are summarized by a `WaitResult`:
`exitErr code` models `err` being an `*exec.ExitError` whose
`ExitCode()` is the child's exit code. -/

inductive RunEv where
  | initPMUForChild
  | notifySignals
  | startChild
  | waitChild
  | stopSignals
  | closeDoneChannel
  | readAndClosePMU
  | printPMUSummary
  | exitProcess (code : Int)
  | returnError
  | returnNil
deriving DecidableEq, Repr

inductive WaitResult where
  | ok
  | exitErr (code : Int)
  | otherErr
deriving DecidableEq, Repr

/-- The sequence of effects of `runBinary`: set up the PMU group,
install the signal relay, start and await the child, stop the relay
and close the done channel, read and close the PMU counters, and
depending on the wait result print the PMU summary and return nil,
print the PMU summary and exit the process with the child's exit
code, or return the wait error. Failures of `InitPMUForChild` or
`cmd.Start()` return early (after PMU cleanup in the latter case). -/
def runBinaryEvents (initOk startOk : Bool) (w : WaitResult) :
    List RunEv :=
  if !initOk then [.initPMUForChild, .returnError]
  else [.initPMUForChild, .notifySignals] ++
    if !startOk then [.stopSignals, .readAndClosePMU, .returnError]
    else [.startChild, .waitChild, .stopSignals, .closeDoneChannel,
          .readAndClosePMU] ++
      match w with
      | .ok => [.printPMUSummary, .returnNil]
      | .exitErr code => [.printPMUSummary, .exitProcess code]
      | .otherErr => [.returnError]

/-- C9: when the traced child terminates with a non-zero exit status,
the orchestrator reads and closes the hardware counters and prints
their summary strictly before exiting, and its own exit code is the
child's. -/
theorem runBinary_child_failure (code : Int) (hnz : code ≠ 0) :
    runBinaryEvents true true (.exitErr code) =
      [.initPMUForChild, .notifySignals, .startChild, .waitChild,
       .stopSignals, .closeDoneChannel, .readAndClosePMU,
       .printPMUSummary, .exitProcess code] ∧
    (runBinaryEvents true true (.exitErr code)).getLast? =
      some (.exitProcess code) ∧
    RunEv.readAndClosePMU ∈
      (runBinaryEvents true true (.exitErr code)).dropLast ∧
    RunEv.printPMUSummary ∈
      (runBinaryEvents true true (.exitErr code)).dropLast := by
  refine ⟨rfl, rfl, ?_, ?_⟩
  · simp [runBinaryEvents]
  · simp [runBinaryEvents]

/-- Witness for `runBinary_child_failure` with child exit code 2. -/
theorem runBinary_child_failure_witness :
    (2 : Int) ≠ 0 ∧
    (runBinaryEvents true true (.exitErr 2) =
      [.initPMUForChild, .notifySignals, .startChild, .waitChild,
       .stopSignals, .closeDoneChannel, .readAndClosePMU,
       .printPMUSummary, .exitProcess 2] ∧
    (runBinaryEvents true true (.exitErr 2)).getLast? =
      some (.exitProcess 2) ∧
    RunEv.readAndClosePMU ∈
      (runBinaryEvents true true (.exitErr 2)).dropLast ∧
    RunEv.printPMUSummary ∈
      (runBinaryEvents true true (.exitErr 2)).dropLast) :=
  ⟨by decide, runBinary_child_failure 2 (by decide)⟩

/-! ## Claim C10: GetTraces returns a fresh copy

Go slices are references into a heap; `GetTraces` does
`cp := make([]Entry, len(traces)); copy(cp, traces); return cp`,
i.e. it allocates a fresh cell holding a copy of the traces cell and
returns a reference to the fresh cell. The heap is modelled as a list
of cells, a slice as a cell index. -/

structure SliceHeap where
  cells : List (List Entry)

def readSlice (h : SliceHeap) (i : Nat) : List Entry :=
  h.cells.getD i []

def writeSlice (h : SliceHeap) (i : Nat) (v : List Entry) : SliceHeap :=
  ⟨h.cells.set i v⟩

/-- `GetTraces` in the heap model: allocate a fresh cell containing a
copy of the traces cell, return its (fresh) reference together with
the new heap. -/
def getTracesMem (h : SliceHeap) (tracesCell : Nat) :
    Nat × SliceHeap :=
  (h.cells.length, ⟨h.cells ++ [readSlice h tracesCell]⟩)

/-- C10: the slice returned by `GetTraces` holds the same entries as
the internal sequence but is a distinct cell; overwriting it (any
mutation through the returned reference) leaves the internal traces
cell unchanged, so a later `GetTraces` — and therefore
`GetHotPaths`'s filter over the same entries — observes the same
entries as before the mutation. -/
theorem getTraces_fresh_copy (h : SliceHeap) (tracesCell : Nat)
    (hvalid : tracesCell < h.cells.length) :
    readSlice (getTracesMem h tracesCell).2 (getTracesMem h tracesCell).1 =
      readSlice h tracesCell ∧
    (getTracesMem h tracesCell).1 ≠ tracesCell ∧
    (∀ v, readSlice (writeSlice (getTracesMem h tracesCell).2
        (getTracesMem h tracesCell).1 v) tracesCell =
      readSlice h tracesCell) ∧
    (∀ v hot, (readSlice (writeSlice (getTracesMem h tracesCell).2
        (getTracesMem h tracesCell).1 v) tracesCell).filter
        (fun e => decide (e.duration ≥ hot)) =
      (readSlice h tracesCell).filter
        (fun e => decide (e.duration ≥ hot))) := by
  have hframe : ∀ v, readSlice (writeSlice (getTracesMem h tracesCell).2
      (getTracesMem h tracesCell).1 v) tracesCell =
      readSlice h tracesCell := by
    intro v
    show ((h.cells ++ [readSlice h tracesCell]).set h.cells.length v).getD
      tracesCell [] = h.cells.getD tracesCell []
    rw [List.getD_eq_getElem?_getD,
      List.getElem?_set_ne (Nat.ne_of_gt hvalid),
      List.getElem?_append_left hvalid, ← List.getD_eq_getElem?_getD]
  refine ⟨?_, Nat.ne_of_gt hvalid, hframe, fun v hot => by rw [hframe v]⟩
  show (h.cells ++ [readSlice h tracesCell]).getD h.cells.length [] =
    readSlice h tracesCell
  rw [List.getD_eq_getElem?_getD, List.getElem?_append_right (le_refl _)]
  simp

def heapW : SliceHeap :=
  ⟨[[mkEntry "f" 1]]⟩

/-- Witness for `getTraces_fresh_copy` on a one-cell heap. -/
theorem getTraces_fresh_copy_witness :
    0 < heapW.cells.length ∧
    (readSlice (getTracesMem heapW 0).2 (getTracesMem heapW 0).1 =
      readSlice heapW 0 ∧
    (getTracesMem heapW 0).1 ≠ 0 ∧
    (∀ v, readSlice (writeSlice (getTracesMem heapW 0).2
        (getTracesMem heapW 0).1 v) 0 = readSlice heapW 0) ∧
    (∀ v hot, (readSlice (writeSlice (getTracesMem heapW 0).2
        (getTracesMem heapW 0).1 v) 0).filter
        (fun e => decide (e.duration ≥ hot)) =
      (readSlice heapW 0).filter
        (fun e => decide (e.duration ≥ hot)))) :=
  ⟨by decide, getTraces_fresh_copy heapW 0 (by decide)⟩

end Gotrace
